import Mathlib

/-!
Verification development for the `pwneddb` repository.

The Python sources (`pwneddb/api.py`, `pwneddb/db.py`, `pwneddb/updatinator.py`,
`pwneddb/command_line.py`) are shallowly embedded below.  Python strings are
modelled as Lean `String` / `List Char` (the data handled by the program is
ASCII); Python `str.casefold` therefore coincides with ASCII lower-casing and is
modelled as such.  Python exceptions are modelled with `Except`; the SQLAlchemy
session is modelled as an explicit store value threaded through the operations,
with `session.add(...)` + `session.commit()` modelled as a single atomic store
update that enforces the `UNIQUE(prefix)` constraint.  Python floats in
`percentage_complete` are modelled as rationals: every value that function can
produce is exactly representable (the numerator is below 2^27 and the divisor is
2^20), so no rounding occurs in the original either.
-/

namespace Pwneddb

/-! ### ASCII model of the Python string primitives -/

/-- ASCII model of Python `str.casefold` / `str.lower` on one character:
upper-case ASCII letters (codes 65..90) map to the corresponding lower-case
letter, everything else is fixed. -/
def pyToLower (c : Char) : Char :=
  if 65 ≤ c.toNat ∧ c.toNat ≤ 90 then Char.ofNat (c.toNat + 32) else c

/-- ASCII model of Python `str.casefold` on a character list. -/
def pyCasefold (l : List Char) : List Char := l.map pyToLower

/-- Helper for `str.split()` with no separator: accumulate the current token
(in reverse) and break on whitespace, dropping empty tokens. -/
def pySplitWsAux : List Char → List Char → List (List Char)
  | [], acc => if acc = [] then [] else [acc.reverse]
  | c :: cs, acc =>
    if c.isWhitespace then
      if acc = [] then pySplitWsAux cs [] else acc.reverse :: pySplitWsAux cs []
    else pySplitWsAux cs (c :: acc)

/-- Model of Python `str.split()` (no separator): whitespace-separated tokens,
empty tokens dropped. -/
def pySplitWs (s : String) : List (List Char) := pySplitWsAux s.data []

/-- Helper for `str.split(':')`: split on every colon, keeping empty parts. -/
def pyColonSplitAux : List Char → List Char → List (List Char)
  | [], acc => [acc.reverse]
  | c :: cs, acc =>
    if c = ':' then acc.reverse :: pyColonSplitAux cs []
    else pyColonSplitAux cs (c :: acc)

/-- Model of Python `line.split(':')`. -/
def pyColonSplit (l : List Char) : List (List Char) := pyColonSplitAux l []

/-- Value of one character as a digit, as Python's `int` accepts them:
`0`-`9`, then letters `a`-`z` / `A`-`Z` with values 10..35. -/
def pyDigitVal (c : Char) : Option Nat :=
  if 48 ≤ c.toNat ∧ c.toNat ≤ 57 then some (c.toNat - 48)
  else if 97 ≤ c.toNat ∧ c.toNat ≤ 122 then some (c.toNat - 87)
  else if 65 ≤ c.toNat ∧ c.toNat ≤ 90 then some (c.toNat - 55)
  else none

/-- Digit value restricted to a base. -/
def pyDigitValB (base : Nat) (c : Char) : Option Nat :=
  (pyDigitVal c).bind fun v => if v < base then some v else none

/-- Digit-sequence accumulator for Python `int(...)`: after the first digit,
single underscores are allowed between digits. -/
def pyDigitsAux (base : Nat) : Nat → List Char → Option Nat
  | acc, [] => some acc
  | acc, c :: cs =>
    if c = '_' then
      match cs with
      | [] => none
      | d :: ds =>
        match pyDigitValB base d with
        | some v => pyDigitsAux base (acc * base + v) ds
        | none => none
    else
      match pyDigitValB base c with
      | some v => pyDigitsAux base (acc * base + v) cs
      | none => none

/-- Digit sequence of Python `int(...)`: non-empty, starts with a digit,
single underscores allowed between digits. -/
def pyDigits (base : Nat) : List Char → Option Nat
  | [] => none
  | c :: cs =>
    match pyDigitValB base c with
    | some v => pyDigitsAux base v cs
    | none => none

/-- Strip leading and trailing whitespace, as Python `int(...)` does. -/
def pyStripWs (l : List Char) : List Char :=
  ((l.dropWhile Char.isWhitespace).reverse.dropWhile Char.isWhitespace).reverse

/-- After a `0x` base prefix Python allows one optional underscore before the
first digit. -/
def pyIntAfterPfx (base : Nat) (l : List Char) : Option Nat :=
  if l.take 1 = ['_'] then pyDigits base (l.drop 1) else pyDigits base l

/-- The unsigned part of a Python `int(...)` literal: for base 16 an optional
`0x` / `0X` marker is allowed. -/
def pyIntDigitsPart (base : Nat) (hexMarker : Bool) (l : List Char) : Option Nat :=
  if hexMarker ∧ (l.take 2 = ['0', 'x'] ∨ l.take 2 = ['0', 'X']) then
    pyIntAfterPfx base (l.drop 2)
  else pyDigits base l

/-- Model of Python `int(string, base)` (ASCII inputs): surrounding whitespace
stripped, optional sign, optional `0x` marker in base 16, digits with
underscore grouping.  Returns `none` where Python raises `ValueError`. -/
def pyIntCore (base : Nat) (hexMarker : Bool) (s : List Char) : Option Int :=
  match pyStripWs s with
  | [] => none
  | c :: rest =>
    if c = '+' then (pyIntDigitsPart base hexMarker rest).map fun n => (n : Int)
    else if c = '-' then (pyIntDigitsPart base hexMarker rest).map fun n => -(n : Int)
    else (pyIntDigitsPart base hexMarker (c :: rest)).map fun n => (n : Int)

/-- Python `int(s)` (base 10). -/
def pyInt10 (l : List Char) : Option Int := pyIntCore 10 false l

/-- Python `int(s, 16)`. -/
def pyInt16 (l : List Char) : Option Int := pyIntCore 16 true l

/-- Lower-case hexadecimal representation of a natural number, no padding:
Python `f"{n:x}"`. -/
def hexRepr (n : Nat) : List Char :=
  if _h : n < 16 then [Nat.digitChar n]
  else hexRepr (n / 16) ++ [Nat.digitChar (n % 16)]
  termination_by n
  decreasing_by
    exact Nat.div_lt_self (by omega) (by omega)

/-- Left-pad with `'0'` to width 5: the `0>5` part of Python `f"{v:0>5x}"`. -/
def padZero5 (l : List Char) : List Char := List.replicate (5 - l.length) '0' ++ l

/-- Model of Python `f"{v:0>5x}"` on an integer. -/
def pyFormatHex5 (v : Int) : String :=
  if v < 0 then String.mk (padZero5 ('-' :: hexRepr v.natAbs))
  else String.mk (padZero5 (hexRepr v.toNat))

/-! ### Model of `pwneddb/api.py` -/

/-- `api.Prefix.MAX_VALUE`: five hexadecimal characters, plus zero. -/
def MAX_VALUE : Int := 16 ^ 5 - 1

/-- `api.PwnedPasswordsAPIv3.URL_RANGE`. -/
def URL_RANGE : String := "https://api.pwnedpasswords.com/range"

/-- Default of the `timeout` argument of `PwnedPasswordsAPIv3.__init__`
(seconds). -/
def DEFAULT_TIMEOUT : Nat := 5

/-- Model of `api.Prefix.__init__` (the class named `Prefix` in `api.py`):
casefold, strip a leading `0x`, require length exactly 5, require that
`int(p, 16)` succeeds; the canonical form is the cleaned string. -/
def pyPfxInit (s : String) : Except String String :=
  let p := pyCasefold s.data
  let p := if p.take 2 = ['0', 'x'] then p.drop 2 else p
  if p.length ≠ 5 then Except.error "prefix must be exactly 5-characters long"
  else
    match pyInt16 p with
    | none => Except.error "prefix must be hexadecimal string"
    | some _ => Except.ok (String.mk p)

/-- Model of `api.Prefix.__int__`: `int(self._prefix, 16)` on the canonical
form. -/
def pyPfxToInt (canon : String) : Option Int := pyInt16 canon.data

/-- Model of `api.Prefix.from_integer`. -/
def from_integer (v : Int) : Except String String :=
  if v < 0 then Except.error "value must be a positive integer"
  else if MAX_VALUE < v then Except.error "value cannot be greater than MAX_VALUE"
  else pyPfxInit (pyFormatHex5 v)

/-- The `RuntimeError` raised by `PwnedPasswordsAPIv3._extract`: 1-based line
number of the offending token and the message of the underlying
`ValueError`. -/
structure MalformedLine where
  line : Nat
  detail : String
deriving DecidableEq

/-- The body of the `try` block of `_extract` for one whitespace-separated
token: `suffix, count = line.split(':')` then `int(count)`.  The error payload
is the corresponding Python `ValueError` message. -/
def extractTok (tok : List Char) : Except String (List Char × Int) :=
  match pyColonSplit tok with
  | [sfx, cnt] =>
    match pyInt10 cnt with
    | some k => Except.ok (sfx, k)
    | none =>
      Except.error ("invalid literal for int() with base 10: '" ++ String.mk cnt ++ "'")
  | parts =>
    Except.error
      (if parts.length < 2 then
        "not enough values to unpack (expected 2, got " ++ toString parts.length ++ ")"
      else "too many values to unpack (expected 2)")

/-- The numbered loop of `_extract`: `enumerate(string.split(), 1)`; the first
failing token aborts the whole parse. -/
def extractAux (canon : String) : Nat → List (List Char) → Except MalformedLine (List (String × Int))
  | _, [] => Except.ok []
  | n, tok :: rest =>
    match extractTok tok with
    | Except.error d => Except.error ⟨n, d⟩
    | Except.ok (sfx, k) =>
      match extractAux canon (n + 1) rest with
      | Except.error e => Except.error e
      | Except.ok tail => Except.ok ((String.mk (pyCasefold (canon.data ++ sfx)), k) :: tail)

/-- Model of `PwnedPasswordsAPIv3._extract`: parse the multi-line body into
(full hash, count) pairs, where the full hash is
`f"{prefix}{suffix}".casefold()`. -/
def pyExtract (canon : String) (body : String) : Except MalformedLine (List (String × Int)) :=
  extractAux canon 1 (pySplitWs body)

/-- One HTTP request as observed by the transport collaborator: the URL and
the timeout passed to `session.get`. -/
structure Request where
  url : String
  timeoutSeconds : Option Nat
deriving DecidableEq

/-- The transport collaborator: maps a URL to a body, or to a transport-level
error (non-2xx status, connection failure). -/
def Transport := String → Except String String

/-- Model of `PwnedPasswordsAPIv3._get`: issues exactly one
`self.session.get(url)` — note the source passes no timeout argument — and
returns the raw text of the response.  The second component is the list of
requests issued. -/
def pyGet (t : Transport) (url : String) : Except String String × List Request :=
  (t url, [⟨url, none⟩])

/-- The exception classes that can cross the boundaries modelled here. -/
inductive PyErr where
  | valueError (msg : String)
  | runtimeError (msg : String)
  | transportError (msg : String)
  | integrityError (msg : String)
  | systemExit (msg : String)
deriving DecidableEq

/-- Model of `PwnedPasswordsAPIv3.fetch_range` on a string argument:
construct the `Prefix`, build the URL, `_get`, `_extract`.  Also returns the
requests issued to the transport. -/
def fetch_range (t : Transport) (pfxStr : String) :
    Except PyErr (List (String × Int)) × List Request :=
  match pyPfxInit pfxStr with
  | Except.error m => (Except.error (PyErr.valueError m), [])
  | Except.ok canon =>
    let url := URL_RANGE ++ "/" ++ canon
    match pyGet t url with
    | (Except.error m, reqs) => (Except.error (PyErr.transportError m), reqs)
    | (Except.ok body, reqs) =>
      match pyExtract canon body with
      | Except.error e =>
        (Except.error
          (PyErr.runtimeError ("line " ++ toString e.line ++ ": " ++ e.detail)), reqs)
      | Except.ok data => (Except.ok data, reqs)

/-! ### Model of `pwneddb/db.py` -/

/-- One persisted `Prefix` row of `db.py` together with its `Password` rows
(the bucket): the cleaned 5-character address and the (sha1, count) records. -/
structure Bucket where
  pfx : String
  passwords : List (String × Int)
deriving DecidableEq

/-- The persistent store (the SQLite database reached through the session). -/
structure Store where
  buckets : List Bucket
deriving DecidableEq

/-- The `prefixes.prefix` column. -/
def pfxList (st : Store) : List String := st.buckets.map Bucket.pfx

/-- Model of `db.Prefix.validate_prefix`: reject any value whose length is not
exactly 5, then casefold.  Hexadecimality is not checked here. -/
def validate_pfx (p : String) : Except String String :=
  if p.length ≠ 5 then
    Except.error ("Given prefix not 5-characters long: '" ++ p ++ "'")
  else Except.ok (String.mk (pyCasefold p.data))

/-- Constructing `db.Prefix(prefix=p, passwords=pwds)`: the `@validates`
hook runs on assignment. -/
def dbPfxNew (p : String) (pwds : List (String × Int)) : Except String Bucket :=
  match validate_pfx p with
  | Except.error m => Except.error m
  | Except.ok canon => Except.ok ⟨canon, pwds⟩

/-- Model of `Manager.add` (`session.add` + `session.commit`) for a bucket:
the commit enforces `UNIQUE (prefix)`; on violation nothing is persisted. -/
def storeAdd (st : Store) (b : Bucket) : Except String Store :=
  if (pfxList st).contains b.pfx then
    Except.error "UNIQUE constraint failed: prefixes.prefix"
  else Except.ok ⟨st.buckets ++ [b]⟩

/-- SQLite BINARY collation on text values (what `ORDER BY prefix DESC` uses):
bytewise comparison; on ASCII data this is codepoint-wise comparison. -/
def bytesLt : List Char → List Char → Bool
  | [], [] => false
  | [], _ :: _ => true
  | _ :: _, [] => false
  | a :: as, b :: bs =>
    if a.toNat < b.toNat then true
    else if b.toNat < a.toNat then false
    else bytesLt as bs

/-- The larger of two strings under the collation of `ORDER BY prefix DESC`. -/
def strMaxBin (a b : String) : String := if bytesLt a.data b.data then b else a

/-- Model of `PrefixManager.largest_prefix`: the first row of
`ORDER BY prefix DESC`, i.e. the maximum under the string collation. -/
def largest_pfx (st : Store) : Option String :=
  match pfxList st with
  | [] => none
  | p :: ps => some (ps.foldl strMaxBin p)

/-- `PrefixManager.TOTAL_ROWS`. -/
def TOTAL_ROWS : Int := 16 ^ 5

/-- Model of `PrefixManager.find_missing`: `'00000'` on an empty table, else
`int(largest, 16) + 1` re-encoded with `f"{value:0>5x}"`, or `None` when the
increment reaches `TOTAL_ROWS`. -/
def find_missing (st : Store) : Except PyErr (Option String) :=
  match largest_pfx st with
  | none => Except.ok (some "00000")
  | some largest =>
    match pyInt16 largest.data with
    | none =>
      Except.error
        (PyErr.valueError ("invalid literal for int() with base 16: '" ++ largest ++ "'"))
    | some v =>
      let value := v + 1
      if value = TOTAL_ROWS then Except.ok none
      else Except.ok (some (pyFormatHex5 value))

/-- Model of `PrefixManager.percentage_complete`: `rows / TOTAL_ROWS * 100.0`
with `rows = int(largest, 16) + 1` (or 0 on an empty table).  Every float this
computes is exactly representable, so rationals model it faithfully. -/
def percentage_complete (st : Store) : Except PyErr ℚ :=
  match largest_pfx st with
  | none => Except.ok ((0 : ℚ) / ((TOTAL_ROWS : ℚ)) * 100)
  | some largest =>
    match pyInt16 largest.data with
    | none =>
      Except.error
        (PyErr.valueError ("invalid literal for int() with base 16: '" ++ largest ++ "'"))
    | some v => Except.ok ((((v + 1 : Int) : ℚ)) / ((TOTAL_ROWS : ℚ)) * 100)

/-! ### Model of `pwneddb/updatinator.py` and `pwneddb/command_line.py` -/

/-- Model of `Updatinator.create_new`: pick the missing address, fetch and
parse its range, then persist the new bucket with all its password rows in one
commit.  Returns the result (or the exception) together with the final state
of the store. -/
def create_new (st : Store) (t : Transport) : Except PyErr (String × Nat) × Store :=
  match find_missing st with
  | Except.error e => (Except.error e, st)
  | Except.ok none => (Except.error (PyErr.runtimeError "No missing prefixes found"), st)
  | Except.ok (some missing) =>
    match (fetch_range t missing).1 with
    | Except.error e => (Except.error e, st)
    | Except.ok hashes =>
      match dbPfxNew missing hashes with
      | Except.error m => (Except.error (PyErr.valueError m), st)
      | Except.ok b =>
        match storeAdd st b with
        | Except.error m => (Except.error (PyErr.integrityError m), st)
        | Except.ok st' => (Except.ok (missing, hashes.length), st')

/-- Outcome of `CommandLine.run`: `normal` is the path that breaks out of the
loop, prints the final summary and returns exit code 0; `uncaught` is an
exception escaping `run` (only `SystemExit` is caught by the loop);
`spinning` means the fuel ran out while the loop was still iterating. -/
inductive RunResult where
  | normal (totalPfx totalPwds : Nat)
  | uncaught (e : PyErr) (st : Store)
  | spinning (st : Store) (totalPfx totalPwds : Nat)
deriving DecidableEq

/-- Model of the `while True` loop of `CommandLine.run` (with fuel): each
iteration calls `create_new` and accumulates the totals; `except SystemExit`
breaks to the summary; any other exception propagates out of `run`. -/
def runLoop (t : Transport) : Nat → Store → Nat → Nat → RunResult
  | 0, st, tp, tw => RunResult.spinning st tp tw
  | fuel + 1, st, tp, tw =>
    match create_new st t with
    | (Except.ok (_, n), st') => runLoop t fuel st' (tp + 1) (tw + n)
    | (Except.error (PyErr.systemExit _), _) => RunResult.normal tp tw
    | (Except.error e, st') => RunResult.uncaught e st'

/-! ### Concrete data used by the end-to-end theorems -/

/-- The four-line wire-format body from the repository's test suite. -/
def RESPONSE_BODY : String :=
  "003CD215739D7C1B2218670D26F81408237:1\r\n" ++
  "003D68EB55068C33ACE09247EE4C639306B:4\r\n" ++
  "012C192B2F16F82EA0EB9EF18D9D539B0DD:3\r\n" ++
  "01330C689E5D64F660D6947A93AD634EF8F:0\r\n"

/-- A transport that answers the range request for address `00000` with the
four-line body and fails every other request. -/
def demoTransport : Transport := fun url =>
  if url = "https://api.pwnedpasswords.com/range/00000" then Except.ok RESPONSE_BODY
  else Except.error "404 Client Error"

/-- The records `create_new` is expected to persist for address `00000`. -/
def expectedHashes : List (String × Int) :=
  [("00000003cd215739d7c1b2218670d26f81408237", 1),
   ("00000003d68eb55068c33ace09247ee4c639306b", 4),
   ("00000012c192b2f16f82ea0eb9ef18d9d539b0dd", 3),
   ("0000001330c689e5d64f660d6947a93ad634ef8f", 0)]

/-! ### Derived notions used to state the claims -/

/-- The spec's reading of `Prefix.__init__` cleaning: first strip an optional
leading `0x` / `0X`, then casefold. -/
def strip0xAnyCase (l : List Char) : List Char :=
  if l.take 2 = ['0', 'x'] ∨ l.take 2 = ['0', 'X'] then l.drop 2 else l

/-- Positional value of a character list read as base-16 digits. -/
def hexVal (l : List Char) : Nat :=
  l.foldl (fun a c => a * 16 + (pyDigitValB 16 c).getD 0) 0

/-- A canonical persisted address: the zero-padded 5-character lower-case hex
encoding of some value below `16^5`. -/
def IsCanon5 (s : String) : Prop :=
  ∃ v : Nat, v < 16 ^ 5 ∧ s = String.mk (padZero5 (hexRepr v))

/-- Numeric maximum of the persisted addresses (0 on an empty list). -/
def maxNumVal (l : List String) : Nat :=
  (l.map fun s => hexVal s.data).foldl Nat.max 0

/-! ### Theorems -/

/-- C1: starting from an empty store, with a transport that answers the range
request for address `00000` with the four-line wire-format body, one
`Updatinator.create_new` call persists exactly one bucket holding exactly the
four parsed records and returns `("00000", 4)`; each persisted hash is 40
characters, lower-case, and starts with `00000`. -/
theorem createNew_end_to_end (t : Transport)
    (h : t "https://api.pwnedpasswords.com/range/00000" = Except.ok RESPONSE_BODY) :
    create_new ⟨[]⟩ t = (Except.ok ("00000", 4), ⟨[⟨"00000", expectedHashes⟩]⟩)
    ∧ expectedHashes.length = 4
    ∧ ∀ hc ∈ expectedHashes,
        hc.1.length = 40 ∧ hc.1.data.take 5 = ['0', '0', '0', '0', '0']
        ∧ pyCasefold hc.1.data = hc.1.data := by
  have hfr : fetch_range t "00000" =
      (Except.ok expectedHashes,
        [⟨"https://api.pwnedpasswords.com/range/00000", none⟩]) := by
    unfold fetch_range pyGet
    simp only [show pyPfxInit "00000" = Except.ok "00000" from rfl]
    rw [show URL_RANGE ++ "/" ++ "00000" = "https://api.pwnedpasswords.com/range/00000" from rfl,
      h]
    rfl
  refine ⟨?_, by decide, by decide⟩
  unfold create_new
  simp only [show find_missing ⟨[]⟩ = Except.ok (some "00000") from rfl, hfr]
  rfl

/-- C1 witness: the hypothesis holds for the concrete demo transport, and the
end-to-end conclusion follows by applying the theorem to it. -/
theorem createNew_end_to_end_witness :
    demoTransport "https://api.pwnedpasswords.com/range/00000" = Except.ok RESPONSE_BODY
    ∧ create_new ⟨[]⟩ demoTransport
        = (Except.ok ("00000", 4), ⟨[⟨"00000", expectedHashes⟩]⟩) :=
  ⟨rfl, (createNew_end_to_end demoTransport rfl).1⟩

/-- C3 counterexample: a line whose count field is `-3` — not a non-negative
integer — is accepted by `_extract` (Python `int` parses the sign), so parsing
does not fail where the claim requires it to. -/
theorem extract_accepts_negative_count :
    pyExtract "5baa6" "0123456789abcdef0123456789abcdef012:-3"
      = Except.ok [("5baa60123456789abcdef0123456789abcdef012", -3)]
    ∧ (-3 : Int) < 0 :=
  ⟨rfl, by decide⟩

/-- C4: `_get` issues exactly one request for the given URL, passes no timeout
to the transport (the configured `DEFAULT_TIMEOUT = 5` is never used — the
source never forwards `self.timeout` to `session.get`), and hands the
transport's successful body back unchanged; `fetch_range` for address `00000`
likewise issues exactly that one request. -/
theorem fetchRange_single_request_no_timeout (t : Transport) :
    (pyGet t (URL_RANGE ++ "/00000")).1 = t (URL_RANGE ++ "/00000")
    ∧ (pyGet t (URL_RANGE ++ "/00000")).2 = [⟨URL_RANGE ++ "/00000", none⟩]
    ∧ (fetch_range t "00000").2
        = [⟨"https://api.pwnedpasswords.com/range/00000", none⟩]
    ∧ DEFAULT_TIMEOUT = 5
    ∧ ∀ r ∈ (fetch_range t "00000").2, r.timeoutSeconds = none := by
  have hsnd : (fetch_range t "00000").2
      = [⟨"https://api.pwnedpasswords.com/range/00000", none⟩] := by
    unfold fetch_range pyGet
    simp only [show pyPfxInit "00000" = Except.ok "00000" from rfl]
    rw [show URL_RANGE ++ "/" ++ "00000" = "https://api.pwnedpasswords.com/range/00000" from rfl]
    cases t "https://api.pwnedpasswords.com/range/00000" with
    | error m => rfl
    | ok body =>
      dsimp only
      cases pyExtract "00000" body <;> rfl
  refine ⟨rfl, rfl, hsnd, rfl, ?_⟩
  rw [hsnd]
  intro r hr
  simp only [List.mem_singleton] at hr
  rw [hr]

/-- C5: on allocator exhaustion (`find_missing` returns `None`, here because
`fffff` is already persisted) `create_new` raises `RuntimeError`, and the
`while True` loop of `CommandLine.run` — which catches only `SystemExit` —
does not reach its final-summary path: the exception escapes `run`
uncaught instead of terminating normally with a summary and success. -/
theorem runLoop_exhaustion_uncaught (fuel tp tw : Nat) (t : Transport) :
    runLoop t (fuel + 1) ⟨[⟨"fffff", []⟩]⟩ tp tw
      = RunResult.uncaught (PyErr.runtimeError "No missing prefixes found")
          ⟨[⟨"fffff", []⟩]⟩ := rfl

/-- C6: `create_new` is all-or-nothing — every execution either commits the
address with all of its parsed hash records as one atomic store update, or
(on any failure: exhaustion, transport error, parse error, validation error,
uniqueness violation) leaves the store completely unchanged. -/
theorem createNew_atomic (st : Store) (t : Transport) :
    ((create_new st t).2 = st ∧ ∃ e, (create_new st t).1 = Except.error e)
    ∨ (∃ p recs b,
        find_missing st = Except.ok (some p)
        ∧ (fetch_range t p).1 = Except.ok recs
        ∧ dbPfxNew p recs = Except.ok b
        ∧ b.passwords = recs
        ∧ (create_new st t).1 = Except.ok (p, recs.length)
        ∧ (create_new st t).2 = ⟨st.buckets ++ [b]⟩) := by
  unfold create_new
  cases hfm : find_missing st with
  | error e => exact Or.inl ⟨rfl, e, rfl⟩
  | ok o =>
    cases o with
    | none => exact Or.inl ⟨rfl, PyErr.runtimeError "No missing prefixes found", rfl⟩
    | some missing =>
      dsimp only
      cases hf : (fetch_range t missing).1 with
      | error e => exact Or.inl ⟨rfl, e, rfl⟩
      | ok recs =>
        dsimp only
        cases hdb : dbPfxNew missing recs with
        | error m => exact Or.inl ⟨rfl, PyErr.valueError m, rfl⟩
        | ok b =>
          dsimp only
          have hbp : b.passwords = recs := by
            unfold dbPfxNew at hdb
            cases hv : validate_pfx missing with
            | error m => rw [hv] at hdb; cases hdb
            | ok canon =>
              rw [hv] at hdb
              cases hdb
              rfl
          cases hsa : storeAdd st b with
          | error m => exact Or.inl ⟨rfl, PyErr.integrityError m, rfl⟩
          | ok st' =>
            have hst : st' = ⟨st.buckets ++ [b]⟩ := by
              unfold storeAdd at hsa
              by_cases hc : (pfxList st).contains b.pfx
              · rw [if_pos hc] at hsa; cases hsa
              · rw [if_neg hc] at hsa; cases hsa; rfl
            exact Or.inr ⟨missing, recs, b, rfl, hf, hdb, hbp, rfl, by rw [hst]⟩

/-- Helper for C3: success of the numbered `_extract` loop is equivalent to
every token parsing. -/
theorem extractAux_ok_iff (canon : String) :
    ∀ (toks : List (List Char)) (n : Nat),
      (∃ r, extractAux canon n toks = Except.ok r)
        ↔ ∀ tok ∈ toks, ∃ v, extractTok tok = Except.ok v := by
  intro toks
  induction toks with
  | nil => intro n; simp [extractAux]
  | cons tok rest ih =>
    intro n
    constructor
    · rintro ⟨r, hr⟩ tok' htok'
      rw [List.mem_cons] at htok'
      unfold extractAux at hr
      cases het : extractTok tok with
      | error d => rw [het] at hr; simp at hr
      | ok v =>
        obtain ⟨sfx, k⟩ := v
        rw [het] at hr
        dsimp only at hr
        cases hrec : extractAux canon (n + 1) rest with
        | error e => rw [hrec] at hr; simp at hr
        | ok tail =>
          rcases htok' with h | h
          · exact ⟨(sfx, k), by rw [h]; exact het⟩
          · exact ((ih (n + 1)).mp ⟨tail, hrec⟩) tok' h
    · intro hall
      obtain ⟨v, hv⟩ := hall tok (List.mem_cons_self tok rest)
      obtain ⟨tail, htail⟩ :=
        (ih (n + 1)).mpr fun tok' h => hall tok' (List.mem_cons_of_mem tok h)
      refine ⟨(String.mk (pyCasefold (canon.data ++ v.1)), v.2) :: tail, ?_⟩
      simp only [extractAux, hv, htail]

/-- Helper for C3: a failing `_extract` loop reports the 1-based position of
the first offending token and the `ValueError` message for it, and every
earlier token parses. -/
theorem extractAux_error_spec (canon : String) :
    ∀ (toks : List (List Char)) (n : Nat) (e : MalformedLine),
      extractAux canon n toks = Except.error e →
      ∃ i, ∃ hlt : i < toks.length,
        e.line = n + i
        ∧ extractTok (toks.get ⟨i, hlt⟩) = Except.error e.detail
        ∧ ∀ j, (hj : j < i) →
            ∃ v, extractTok (toks.get ⟨j, Nat.lt_trans hj hlt⟩) = Except.ok v := by
  intro toks
  induction toks with
  | nil => intro n e h; cases h
  | cons tok rest ih =>
    intro n e h
    unfold extractAux at h
    cases het : extractTok tok with
    | error d =>
      rw [het] at h
      dsimp only at h
      injection h with h2
      subst h2
      refine ⟨0, Nat.succ_pos _, by simp, het, ?_⟩
      intro j hj
      exact absurd hj (by omega)
    | ok v =>
      obtain ⟨sfx, k⟩ := v
      rw [het] at h
      dsimp only at h
      cases hrec : extractAux canon (n + 1) rest with
      | error e' =>
        rw [hrec] at h
        dsimp only at h
        injection h with h2
        subst h2
        obtain ⟨i', hlt', hline, hget, hearlier⟩ := ih (n + 1) e' hrec
        refine ⟨i' + 1, Nat.succ_lt_succ hlt', by omega, hget, ?_⟩
        intro j hj
        cases j with
        | zero => exact ⟨(sfx, k), het⟩
        | succ j' => exact hearlier j' (by omega)
      | ok tail => rw [hrec] at h; simp at h

/-- C3 (amended): `_extract` fails exactly when some whitespace-separated
token does not split into two parts on `:` or its count field does not parse
as a Python base-10 integer (sign permitted, so negative counts are
accepted); on failure the error reports the 1-based position of the first
offending token with the underlying `ValueError` message, every earlier token
parses, and no partial record list is returned. -/
theorem extract_failure_characterization (canon body : String) :
    ((∃ r, pyExtract canon body = Except.ok r)
      ↔ ∀ tok ∈ pySplitWs body, ∃ v, extractTok tok = Except.ok v)
    ∧ (∀ e, pyExtract canon body = Except.error e →
        ∃ i, ∃ hlt : i < (pySplitWs body).length,
          e.line = i + 1
          ∧ extractTok ((pySplitWs body).get ⟨i, hlt⟩) = Except.error e.detail
          ∧ ∀ j, (hj : j < i) →
              ∃ v, extractTok ((pySplitWs body).get ⟨j, Nat.lt_trans hj hlt⟩)
                = Except.ok v)
    ∧ ∀ tok : List Char,
        (∃ v, extractTok tok = Except.ok v)
          ↔ ((pyColonSplit tok).length = 2
             ∧ ∀ sfx cnt, pyColonSplit tok = [sfx, cnt] → (pyInt10 cnt).isSome) := by
  refine ⟨extractAux_ok_iff canon (pySplitWs body) 1, ?_, ?_⟩
  · intro e he
    obtain ⟨i, hlt, hline, hget, hearlier⟩ :=
      extractAux_error_spec canon (pySplitWs body) 1 e he
    exact ⟨i, hlt, by omega, hget, hearlier⟩
  · intro tok
    unfold extractTok
    rcases hsp : pyColonSplit tok with _ | ⟨a, _ | ⟨b, _ | ⟨c, rest⟩⟩⟩
    · simp
    · simp
    · cases hint : pyInt10 b with
      | none =>
        simp only [hint]
        constructor
        · rintro ⟨v, hv⟩; cases hv
        · rintro ⟨-, hall⟩
          have := hall a b rfl
          rw [hint] at this
          cases this
      | some k =>
        simp only [hint]
        constructor
        · intro _
          refine ⟨rfl, ?_⟩
          rintro sfx cnt ⟨⟩
          rw [hint]
          rfl
        · intro _
          exact ⟨(a, k), rfl⟩
    · simp

/-- C3 witness: on the body `nocolon` the parse fails at 1-based line 1 with
the unpack `ValueError`, as the characterization theorem states. -/
theorem extract_failure_characterization_witness :
    pyExtract "5baa6" "nocolon"
        = Except.error ⟨1, "not enough values to unpack (expected 2, got 1)"⟩
    ∧ ∃ i, ∃ hlt : i < (pySplitWs "nocolon").length,
        (1 : Nat) = i + 1
        ∧ extractTok ((pySplitWs "nocolon").get ⟨i, hlt⟩)
            = Except.error "not enough values to unpack (expected 2, got 1)"
        ∧ ∀ j, (hj : j < i) →
            ∃ v, extractTok ((pySplitWs "nocolon").get ⟨j, Nat.lt_trans hj hlt⟩)
              = Except.ok v :=
  ⟨rfl,
   (extract_failure_characterization "5baa6" "nocolon").2.1
     ⟨1, "not enough values to unpack (expected 2, got 1)"⟩ rfl⟩

/-- C10: the store-side validator `db.Prefix.validate_prefix` checks only the
length and casefolds: any 5-character value — hexadecimal or not — is accepted
and stored casefolded (so a non-hex address can be persisted at the store
boundary), while any other length raises `ValueError`. -/
theorem validate_pfx_length_only (s : String) :
    (s.length = 5 →
      validate_pfx s = Except.ok (String.mk (pyCasefold s.data))
      ∧ ∀ pwds, dbPfxNew s pwds = Except.ok ⟨String.mk (pyCasefold s.data), pwds⟩)
    ∧ (s.length ≠ 5 →
      validate_pfx s = Except.error ("Given prefix not 5-characters long: '" ++ s ++ "'")) := by
  constructor
  · intro h
    have hv : validate_pfx s = Except.ok (String.mk (pyCasefold s.data)) := by
      unfold validate_pfx
      rw [if_neg (by omega)]
    exact ⟨hv, fun pwds => by unfold dbPfxNew; rw [hv]⟩
  · intro h
    unfold validate_pfx
    rw [if_pos h]

/-- C10 witness: the non-hexadecimal 5-character value `zz!?Q` passes the
store-side validator and is stored casefolded. -/
theorem validate_pfx_length_only_witness :
    ("zz!?Q" : String).length = 5
    ∧ validate_pfx "zz!?Q" = Except.ok (String.mk (pyCasefold "zz!?Q".data))
    ∧ dbPfxNew "zz!?Q" [] = Except.ok ⟨String.mk (pyCasefold "zz!?Q".data), []⟩
    ∧ ("abcd" : String).length ≠ 5
    ∧ validate_pfx "abcd"
        = Except.error ("Given prefix not 5-characters long: '" ++ "abcd" ++ "'") :=
  ⟨by decide,
   ((validate_pfx_length_only "zz!?Q").1 (by decide)).1,
   ((validate_pfx_length_only "zz!?Q").1 (by decide)).2 [],
   by decide,
   (validate_pfx_length_only "abcd").2 (by decide)⟩

/-! ### Character-level facts about the ASCII casefold and digit models -/

/-- Decoding `Char.ofNat` in the ASCII letter range. -/
theorem char_toNat_ofNat_add32 {n : Nat} (h1 : 65 ≤ n) (h2 : n ≤ 90) :
    (Char.ofNat (n + 32)).toNat = n + 32 := by
  have hv : (n + 32).isValidChar := by
    unfold Nat.isValidChar
    left
    omega
  simp [Char.ofNat, hv, Char.ofNatAux, Char.toNat, UInt32.toNat, BitVec.toNat_ofNatLt]

/-- `Char.toNat` is injective. -/
theorem char_toNat_inj {c d : Char} (h : c.toNat = d.toNat) : c = d := by
  have hc := Char.ofNat_toNat c
  rw [h, Char.ofNat_toNat] at hc
  exact hc.symm

/-- Two characters with different codes differ. -/
theorem char_ne_of_toNat_ne {c d : Char} (h : c.toNat ≠ d.toNat) : c ≠ d :=
  fun he => h (he ▸ rfl)

/-- The code of `pyToLower c`: either unchanged, or shifted by 32 out of the
upper-case range. -/
theorem pyToLower_toNat (c : Char) :
    (pyToLower c).toNat = c.toNat
    ∨ ((pyToLower c).toNat = c.toNat + 32 ∧ 65 ≤ c.toNat ∧ c.toNat ≤ 90) := by
  unfold pyToLower
  by_cases h : 65 ≤ c.toNat ∧ c.toNat ≤ 90
  · rw [if_pos h]
    exact Or.inr ⟨char_toNat_ofNat_add32 h.1 h.2, h.1, h.2⟩
  · rw [if_neg h]
    exact Or.inl rfl

/-- Only `'0'` casefolds to `'0'`. -/
theorem pyToLower_eq_zero_iff (c : Char) : pyToLower c = '0' ↔ c = '0' := by
  constructor
  · intro h
    have h' : (pyToLower c).toNat = 48 := by rw [h]; rfl
    have h48 : ('0' : Char).toNat = 48 := rfl
    rcases pyToLower_toNat c with h2 | ⟨h2, h3, h4⟩
    · exact char_toNat_inj (by omega)
    · omega
  · intro h
    subst h
    rfl

/-- Exactly `'x'` and `'X'` casefold to `'x'`. -/
theorem pyToLower_eq_x_iff (c : Char) : pyToLower c = 'x' ↔ (c = 'x' ∨ c = 'X') := by
  constructor
  · intro h
    have h' : (pyToLower c).toNat = 120 := by rw [h]; rfl
    have hx : ('x' : Char).toNat = 120 := rfl
    have hX : ('X' : Char).toNat = 88 := rfl
    rcases pyToLower_toNat c with h2 | ⟨h2, h3, h4⟩
    · exact Or.inl (char_toNat_inj (by omega))
    · exact Or.inr (char_toNat_inj (by omega))
  · rintro (h | h) <;> subst h <;> rfl

/-- The underscore is not a digit in any base. -/
theorem pyDigitValB_underscore (base : Nat) : pyDigitValB base '_' = none := rfl

/-- Code range of a base-16 digit accepted by the Python `int` model. -/
theorem hexDigit_toNat_range {c : Char} (h : (pyDigitValB 16 c).isSome) :
    (48 ≤ c.toNat ∧ c.toNat ≤ 57) ∨ (97 ≤ c.toNat ∧ c.toNat ≤ 102)
    ∨ (65 ≤ c.toNat ∧ c.toNat ≤ 70) := by
  rcases hv : pyDigitVal c with - | v
  · unfold pyDigitValB at h
    rw [hv] at h
    simp at h
  · have hb : v < 16 := by
      unfold pyDigitValB at h
      rw [hv] at h
      by_cases hb : v < 16
      · exact hb
      · rw [Option.bind] at h
        simp [hb] at h
    unfold pyDigitVal at hv
    split_ifs at hv with h1 h2 h3
    · left
      omega
    · right; left
      injection hv with hv2
      omega
    · right; right
      injection hv with hv2
      omega

/-- A base-16 digit is not whitespace. -/
theorem hexDigit_not_ws {c : Char} (h : (pyDigitValB 16 c).isSome) :
    c.isWhitespace = false := by
  rcases hexDigit_toNat_range h with h1 | h1 | h1 <;>
  · have hs : (' ' : Char).toNat = 32 := rfl
    have ht : ('\t' : Char).toNat = 9 := rfl
    have hr : ('\r' : Char).toNat = 13 := rfl
    have hn : ('\n' : Char).toNat = 10 := rfl
    simp only [Char.isWhitespace, Bool.or_eq_false_iff, decide_eq_false_iff_not]
    refine ⟨⟨⟨?_, ?_⟩, ?_⟩, ?_⟩ <;> exact char_ne_of_toNat_ne (by omega)

/-- A base-16 digit is not a sign character. -/
theorem hexDigit_not_sign {c : Char} (h : (pyDigitValB 16 c).isSome) :
    c ≠ '+' ∧ c ≠ '-' := by
  have hp : ('+' : Char).toNat = 43 := rfl
  have hm : ('-' : Char).toNat = 45 := rfl
  rcases hexDigit_toNat_range h with h1 | h1 | h1 <;>
    exact ⟨char_ne_of_toNat_ne (by omega), char_ne_of_toNat_ne (by omega)⟩

/-- `dropWhile` is the identity when no element satisfies the predicate. -/
theorem dropWhile_eq_self_of {p : Char → Bool} {l : List Char}
    (h : ∀ c ∈ l, p c = false) : l.dropWhile p = l := by
  cases l with
  | nil => rfl
  | cons c cs =>
    rw [List.dropWhile_cons, h c (List.mem_cons_self c cs)]
    simp

/-- Whitespace stripping is the identity on whitespace-free lists. -/
theorem pyStripWs_of {l : List Char} (h : ∀ c ∈ l, c.isWhitespace = false) :
    pyStripWs l = l := by
  unfold pyStripWs
  rw [dropWhile_eq_self_of h,
    dropWhile_eq_self_of (fun c hc => h c (List.mem_reverse.mp hc)),
    List.reverse_reverse]

/-- The digit accumulator on an underscore-free all-digit list computes the
positional fold. -/
theorem pyDigitsAux_of_all {base : Nat} {l : List Char}
    (h : ∀ c ∈ l, (pyDigitValB base c).isSome) :
    ∀ acc, pyDigitsAux base acc l
      = some (l.foldl (fun a c => a * base + (pyDigitValB base c).getD 0) acc) := by
  induction l with
  | nil => intro acc; rfl
  | cons c cs ih =>
    intro acc
    have hc := h c (List.mem_cons_self c cs)
    have hcu : c ≠ '_' := by
      intro he
      subst he
      rw [pyDigitValB_underscore] at hc
      simp at hc
    obtain ⟨v, hv⟩ := Option.isSome_iff_exists.mp hc
    unfold pyDigitsAux
    rw [if_neg hcu, hv]
    dsimp only
    rw [ih (fun d hd => h d (List.mem_cons_of_mem c hd)) (acc * base + v),
      List.foldl_cons, hv]
    rfl

/-- The digit-sequence parser on a non-empty all-digit list computes the
positional fold. -/
theorem pyDigits_of_all {base : Nat} {l : List Char} (hne : l ≠ [])
    (h : ∀ c ∈ l, (pyDigitValB base c).isSome) :
    pyDigits base l
      = some (l.foldl (fun a c => a * base + (pyDigitValB base c).getD 0) 0) := by
  cases l with
  | nil => exact absurd rfl hne
  | cons c cs =>
    obtain ⟨v, hv⟩ := Option.isSome_iff_exists.mp (h c (List.mem_cons_self c cs))
    unfold pyDigits
    dsimp only
    rw [hv]
    dsimp only
    rw [pyDigitsAux_of_all (fun d hd => h d (List.mem_cons_of_mem c hd)) v,
      List.foldl_cons, hv]
    have : (0 : Nat) * base + (some v).getD 0 = v := by simp
    rw [this]

/-- On a non-empty list of plain base-16 digits, the full Python `int(s, 16)`
model computes the positional value. -/
theorem pyInt16_hexDigits {l : List Char} (hne : l ≠ [])
    (h : ∀ c ∈ l, (pyDigitValB 16 c).isSome) :
    pyInt16 l = some ((hexVal l : Nat) : Int) := by
  unfold pyInt16 pyIntCore
  rw [pyStripWs_of (fun c hc => hexDigit_not_ws (h c hc))]
  cases l with
  | nil => exact absurd rfl hne
  | cons c cs =>
    dsimp only
    have hsign := hexDigit_not_sign (h c (List.mem_cons_self c cs))
    rw [if_neg hsign.1, if_neg hsign.2]
    unfold pyIntDigitsPart
    have hcond : ¬ ((true : Bool) = true
        ∧ ((c :: cs).take 2 = ['0', 'x'] ∨ (c :: cs).take 2 = ['0', 'X'])) := by
      rintro ⟨-, hor⟩
      cases cs with
      | nil => rcases hor with he | he <;> simp at he
      | cons c2 cs2 =>
        have hc2 := h c2 (List.mem_cons_of_mem c (List.mem_cons_self c2 cs2))
        rcases hor with he | he <;>
          simp only [List.take, List.cons.injEq] at he <;>
          rw [he.2.1] at hc2 <;> simp [pyDigitValB, pyDigitVal] at hc2
    rw [if_neg hcond, pyDigits_of_all hne h]
    rfl

/-! ### Facts about the hexadecimal encoder and positional values -/

/-- A digit value returned for a base is below the base. -/
theorem pyDigitValB_lt {base : Nat} {c : Char} {v : Nat}
    (hv : pyDigitValB base c = some v) : v < base := by
  unfold pyDigitValB at hv
  rcases hd : pyDigitVal c with - | w
  · rw [hd] at hv
    simp at hv
  · rw [hd] at hv
    by_cases hb : w < base
    · simp [hb] at hv
      omega
    · simp [hb] at hv

/-- Shifting the accumulator of the positional fold. -/
theorem hexFold_acc (l : List Char) :
    ∀ acc : Nat,
      l.foldl (fun a c => a * 16 + (pyDigitValB 16 c).getD 0) acc
        = acc * 16 ^ l.length + hexVal l := by
  induction l with
  | nil => intro acc; simp [hexVal]
  | cons c cs ih =>
    intro acc
    have h2 : hexVal (c :: cs)
        = (pyDigitValB 16 c).getD 0 * 16 ^ cs.length + hexVal cs := by
      show List.foldl (fun a c => a * 16 + (pyDigitValB 16 c).getD 0) 0 (c :: cs) = _
      rw [List.foldl_cons, ih]
      ring_nf
    rw [List.foldl_cons, ih, h2, List.length_cons]
    ring

/-- Unfolding the positional value of a cons. -/
theorem hexVal_cons (c : Char) (cs : List Char) :
    hexVal (c :: cs) = (pyDigitValB 16 c).getD 0 * 16 ^ cs.length + hexVal cs := by
  show List.foldl (fun a c => a * 16 + (pyDigitValB 16 c).getD 0) 0 (c :: cs) = _
  rw [List.foldl_cons, hexFold_acc]
  ring_nf

/-- The positional value of an all-digit list is bounded by `16 ^ length`. -/
theorem hexVal_lt {l : List Char} (h : ∀ c ∈ l, (pyDigitValB 16 c).isSome) :
    hexVal l < 16 ^ l.length := by
  induction l with
  | nil => simp [hexVal]
  | cons c cs ih =>
    have hd : (pyDigitValB 16 c).getD 0 < 16 := by
      obtain ⟨v, hv⟩ :=
        Option.isSome_iff_exists.mp (h c (List.mem_cons_self c cs))
      rw [hv]
      simpa using pyDigitValB_lt hv
    have htail := ih fun d hd' => h d (List.mem_cons_of_mem c hd')
    rw [hexVal_cons, List.length_cons, pow_succ]
    have step1 : (pyDigitValB 16 c).getD 0 * 16 ^ cs.length + hexVal cs
        < ((pyDigitValB 16 c).getD 0 + 1) * 16 ^ cs.length := by
      rw [add_mul, one_mul]
      exact Nat.add_lt_add_left htail _
    have step2 : ((pyDigitValB 16 c).getD 0 + 1) * 16 ^ cs.length
        ≤ 16 * 16 ^ cs.length :=
      Nat.mul_le_mul_right _ (by omega)
    calc (pyDigitValB 16 c).getD 0 * 16 ^ cs.length + hexVal cs
        < ((pyDigitValB 16 c).getD 0 + 1) * 16 ^ cs.length := step1
      _ ≤ 16 * 16 ^ cs.length := step2
      _ = 16 ^ cs.length * 16 := by ring

/-- Leading zeros do not change the positional value. -/
theorem hexVal_replicate_zero (k : Nat) (l : List Char) :
    hexVal (List.replicate k '0' ++ l) = hexVal l := by
  induction k with
  | zero => simp
  | succ k ih =>
    rw [List.replicate_succ, List.cons_append]
    unfold hexVal at ih ⊢
    rw [List.foldl_cons]
    have h0 : (0 : Nat) * 16 + (pyDigitValB 16 '0').getD 0 = 0 := rfl
    rw [h0]
    exact ih

/-- Appending one digit multiplies by the base. -/
theorem hexVal_append_singleton (l : List Char) (c : Char) :
    hexVal (l ++ [c]) = 16 * hexVal l + (pyDigitValB 16 c).getD 0 := by
  unfold hexVal
  rw [List.foldl_append, List.foldl_cons, hexFold_acc]
  simp [List.foldl, hexVal]
  ring

/-- Every character of `hexRepr n` is a digit character. -/
theorem hexRepr_mem (n : Nat) : ∀ c ∈ hexRepr n, ∃ k, k < 16 ∧ c = Nat.digitChar k := by
  induction n using Nat.strong_induction_on with
  | _ n ih =>
    intro c hc
    by_cases h : n < 16
    · unfold hexRepr at hc
      rw [dif_pos h] at hc
      simp at hc
      exact ⟨n, h, hc⟩
    · unfold hexRepr at hc
      rw [dif_neg h] at hc
      rcases List.mem_append.mp hc with h2 | h2
      · exact ih (n / 16) (Nat.div_lt_self (by omega) (by omega)) c h2
      · simp at h2
        exact ⟨n % 16, Nat.mod_lt n (by omega), h2⟩

/-- Digit characters parse back to their value in base 16. -/
theorem digitChar_hexVal : ∀ k, k < 16 → pyDigitValB 16 (Nat.digitChar k) = some k := by
  decide

/-- Digit characters are lower-case: the casefold fixes them. -/
theorem digitChar_lower : ∀ k, k < 16 → pyToLower (Nat.digitChar k) = Nat.digitChar k := by
  decide

/-- On digit characters the byte order agrees with the digit value order. -/
theorem digitChar_mono : ∀ j, j < 16 → ∀ k, k < 16 →
    ((Nat.digitChar j).toNat < (Nat.digitChar k).toNat ↔ j < k) := by
  decide

/-- No digit character is an `x` marker. -/
theorem digitChar_ne_x : ∀ k, k < 16 →
    Nat.digitChar k ≠ 'x' ∧ Nat.digitChar k ≠ 'X' := by
  decide

/-- The hexadecimal encoder round-trips through the positional value. -/
theorem hexVal_hexRepr (n : Nat) : hexVal (hexRepr n) = n := by
  induction n using Nat.strong_induction_on with
  | _ n ih =>
    by_cases h : n < 16
    · unfold hexRepr
      rw [dif_pos h]
      simp [hexVal, List.foldl, digitChar_hexVal n h]
    · unfold hexRepr
      rw [dif_neg h, hexVal_append_singleton,
        ih (n / 16) (Nat.div_lt_self (by omega) (by omega)),
        digitChar_hexVal (n % 16) (Nat.mod_lt n (by omega))]
      simp
      omega

/-- The encoder never produces the empty list. -/
theorem hexRepr_ne_nil (n : Nat) : hexRepr n ≠ [] := by
  unfold hexRepr
  split <;> simp

/-- Width bound of the encoder. -/
theorem hexRepr_length_le (n : Nat) :
    ∀ k, 1 ≤ k → n < 16 ^ k → (hexRepr n).length ≤ k := by
  induction n using Nat.strong_induction_on with
  | _ n ih =>
    intro k hk hlt
    by_cases h : n < 16
    · unfold hexRepr
      rw [dif_pos h]
      simpa using hk
    · unfold hexRepr
      rw [dif_neg h, List.length_append]
      have hk2 : 2 ≤ k := by
        by_contra hc
        have hk1 : k = 1 := by omega
        subst hk1
        simp at hlt
        omega
      have hdiv : n / 16 < 16 ^ (k - 1) := by
        have hpow : 16 ^ k = 16 ^ (k - 1) * 16 := by
          rw [← pow_succ]
          congr 1
          omega
        rw [hpow, Nat.mul_comm] at hlt
        exact Nat.div_lt_of_lt_mul hlt
      have := ih (n / 16) (Nat.div_lt_self (by omega) (by omega)) (k - 1) (by omega) hdiv
      simp
      omega

/-- Length of the padded 5-character form. -/
theorem padZero5_length {l : List Char} (h : l.length ≤ 5) :
    (padZero5 l).length = 5 := by
  unfold padZero5
  rw [List.length_append, List.length_replicate]
  omega

/-- Members of the padded form come from the pad or the digits. -/
theorem padZero5_mem {l : List Char} {c : Char} (hc : c ∈ padZero5 l) :
    c = '0' ∨ c ∈ l := by
  unfold padZero5 at hc
  rcases List.mem_append.mp hc with h | h
  · exact Or.inl (List.eq_of_mem_replicate h)
  · exact Or.inr h

/-- The canonical encoding of `v < 16^5`: 5 characters, all digit characters,
positional value `v`. -/
theorem encode5_facts {v : Nat} (h : v < 16 ^ 5) :
    (padZero5 (hexRepr v)).length = 5
    ∧ (∀ c ∈ padZero5 (hexRepr v), ∃ k, k < 16 ∧ c = Nat.digitChar k)
    ∧ hexVal (padZero5 (hexRepr v)) = v := by
  refine ⟨padZero5_length (hexRepr_length_le v 5 (by omega) h), ?_, ?_⟩
  · intro c hc
    rcases padZero5_mem hc with h2 | h2
    · exact ⟨0, by omega, by rw [h2]; rfl⟩
    · exact hexRepr_mem v c h2
  · unfold padZero5
    rw [hexVal_replicate_zero, hexVal_hexRepr]

/-! ### The canonical 5-character encodings through `Prefix.__init__` -/

/-- Digit characters are base-16 digits. -/
theorem canonList_hex {l : List Char} (h : ∀ c ∈ l, ∃ k, k < 16 ∧ c = Nat.digitChar k) :
    ∀ c ∈ l, (pyDigitValB 16 c).isSome := by
  intro c hc
  obtain ⟨k, hk, rfl⟩ := h c hc
  rw [digitChar_hexVal k hk]
  rfl

/-- The casefold fixes a list of digit characters. -/
theorem canonList_casefold {l : List Char}
    (h : ∀ c ∈ l, ∃ k, k < 16 ∧ c = Nat.digitChar k) : pyCasefold l = l := by
  induction l with
  | nil => rfl
  | cons c cs ih =>
    obtain ⟨k, hk, rfl⟩ := h c (List.mem_cons_self c cs)
    show pyToLower (Nat.digitChar k) :: pyCasefold cs = _
    rw [digitChar_lower k hk, ih fun d hd => h d (List.mem_cons_of_mem _ hd)]

/-- A 5-character digit list never starts with an `0x` marker. -/
theorem canonList_not_marker {l : List Char} (hlen : l.length = 5)
    (h : ∀ c ∈ l, ∃ k, k < 16 ∧ c = Nat.digitChar k) :
    l.take 2 ≠ ['0', 'x'] ∧ l.take 2 ≠ ['0', 'X'] := by
  rcases l with - | ⟨a, - | ⟨b, rest⟩⟩
  · simp at hlen
  · simp at hlen
  · obtain ⟨k, hk, hbk⟩ := h b (by simp)
    subst hbk
    constructor <;> intro he <;> simp [List.take] at he
    · exact (digitChar_ne_x k hk).1 he.2
    · exact (digitChar_ne_x k hk).2 he.2

/-- `Prefix.__init__` accepts a canonical 5-digit list unchanged. -/
theorem pyPfxInit_canon {l : List Char} (hlen : l.length = 5)
    (h : ∀ c ∈ l, ∃ k, k < 16 ∧ c = Nat.digitChar k) :
    pyPfxInit (String.mk l) = Except.ok (String.mk l) := by
  have hne : l ≠ [] := by
    intro he
    subst he
    simp at hlen
  unfold pyPfxInit
  rw [show (String.mk l).data = l from rfl, canonList_casefold h]
  dsimp only
  rw [if_neg (canonList_not_marker hlen h).1, if_neg (by omega),
    pyInt16_hexDigits hne (canonList_hex h)]

/-- C8: integer construction round-trips — for every `0 ≤ v ≤ 0xFFFFF`,
`Prefix.from_integer(v)` succeeds and `int(...)` on the result gives back
`v`; `from_integer(-1)` and `from_integer(0x100000)` raise the two
out-of-range `ValueError`s. -/
theorem from_integer_roundtrip :
    (∀ v : Int, 0 ≤ v → v ≤ MAX_VALUE →
      from_integer v = Except.ok (pyFormatHex5 v)
      ∧ pyPfxToInt (pyFormatHex5 v) = some v)
    ∧ from_integer (-1) = Except.error "value must be a positive integer"
    ∧ from_integer (16 ^ 5) = Except.error "value cannot be greater than MAX_VALUE" := by
  refine ⟨?_, rfl, rfl⟩
  intro v h0 hmax
  have hM : MAX_VALUE = 1048575 := by norm_num [MAX_VALUE]
  have h165 : (16 : Nat) ^ 5 = 1048576 := by norm_num
  have hvn : v.toNat < 16 ^ 5 := by
    rw [h165]
    omega
  obtain ⟨hlen, hmem, hval⟩ := encode5_facts hvn
  have hfmt : pyFormatHex5 v = String.mk (padZero5 (hexRepr v.toNat)) := by
    unfold pyFormatHex5
    rw [if_neg (by omega)]
  have hinit := pyPfxInit_canon hlen hmem
  constructor
  · unfold from_integer
    rw [if_neg (by omega), if_neg (by omega), hfmt, hinit]
  · unfold pyPfxToInt
    rw [hfmt, show (String.mk (padZero5 (hexRepr v.toNat))).data
        = padZero5 (hexRepr v.toNat) from rfl,
      pyInt16_hexDigits (by intro he; rw [he] at hlen; simp at hlen) (canonList_hex hmem),
      hval]
    congr 1
    omega

/-- C8 witness: the round trip at `v = 123456`. -/
theorem from_integer_roundtrip_witness :
    (0 : Int) ≤ 123456 ∧ (123456 : Int) ≤ MAX_VALUE
    ∧ from_integer 123456 = Except.ok (pyFormatHex5 123456)
    ∧ pyPfxToInt (pyFormatHex5 123456) = some 123456 :=
  ⟨by decide, by decide,
   (from_integer_roundtrip.1 123456 (by decide) (by decide)).1,
   (from_integer_roundtrip.1 123456 (by decide) (by decide)).2⟩

/-! ### The SQLite string order agrees with numeric order on canonical
addresses -/

/-- On equal-length digit-character lists, the bytewise collation agrees with
the positional value order. -/
theorem bytesLt_iff_hexVal :
    ∀ (as bs : List Char), as.length = bs.length →
      (∀ c ∈ as, ∃ k, k < 16 ∧ c = Nat.digitChar k) →
      (∀ c ∈ bs, ∃ k, k < 16 ∧ c = Nat.digitChar k) →
      (bytesLt as bs = true ↔ hexVal as < hexVal bs) := by
  intro as
  induction as with
  | nil =>
    intro bs hlen _ _
    cases bs with
    | nil => simp [bytesLt, hexVal]
    | cons b bs' => simp at hlen
  | cons a as' ih =>
    intro bs hlen ha hb
    cases bs with
    | nil => simp at hlen
    | cons b bs' =>
      obtain ⟨j, hj, haj⟩ := ha a (List.mem_cons_self a as')
      obtain ⟨k, hk, hbk⟩ := hb b (List.mem_cons_self b bs')
      have hlen' : as'.length = bs'.length := by simpa using hlen
      have hta : ∀ c ∈ as', ∃ m, m < 16 ∧ c = Nat.digitChar m :=
        fun c hc => ha c (List.mem_cons_of_mem a hc)
      have htb : ∀ c ∈ bs', ∃ m, m < 16 ∧ c = Nat.digitChar m :=
        fun c hc => hb c (List.mem_cons_of_mem b hc)
      have hvj : (pyDigitValB 16 a).getD 0 = j := by
        rw [haj, digitChar_hexVal j hj]
        rfl
      have hvk : (pyDigitValB 16 b).getD 0 = k := by
        rw [hbk, digitChar_hexVal k hk]
        rfl
      have hbound_a : hexVal as' < 16 ^ as'.length := hexVal_lt (canonList_hex hta)
      have hbound_b : hexVal bs' < 16 ^ bs'.length := hexVal_lt (canonList_hex htb)
      unfold bytesLt
      by_cases h1 : a.toNat < b.toNat
      · rw [if_pos h1]
        have hjk : j < k := by
          rw [haj, hbk] at h1
          exact (digitChar_mono j hj k hk).mp h1
        apply iff_of_true rfl
        rw [hexVal_cons, hexVal_cons, hvj, hvk, hlen']
        calc j * 16 ^ bs'.length + hexVal as'
            < j * 16 ^ bs'.length + 16 ^ bs'.length := by
              rw [hlen'] at hbound_a
              exact Nat.add_lt_add_left hbound_a _
          _ = (j + 1) * 16 ^ bs'.length := by ring
          _ ≤ k * 16 ^ bs'.length := Nat.mul_le_mul_right _ (by omega)
          _ ≤ k * 16 ^ bs'.length + hexVal bs' := Nat.le_add_right _ _
      · rw [if_neg h1]
        by_cases h2 : b.toNat < a.toNat
        · rw [if_pos h2]
          have hkj : k < j := by
            rw [haj, hbk] at h2
            exact (digitChar_mono k hk j hj).mp h2
          apply iff_of_false (by simp)
          rw [hexVal_cons, hexVal_cons, hvj, hvk, hlen', Nat.not_lt]
          refine Nat.le_of_lt ?_
          calc k * 16 ^ bs'.length + hexVal bs'
              < k * 16 ^ bs'.length + 16 ^ bs'.length := Nat.add_lt_add_left hbound_b _
            _ = (k + 1) * 16 ^ bs'.length := by ring
            _ ≤ j * 16 ^ bs'.length := Nat.mul_le_mul_right _ (by omega)
            _ ≤ j * 16 ^ bs'.length + hexVal as' := Nat.le_add_right _ _
        · rw [if_neg h2]
          have hjk : j = k := by
            have hab : a = b := char_toNat_inj (by omega)
            rw [hab] at haj
            rw [haj] at hbk
            have h3 := (digitChar_mono j hj k hk).symm
            have h4 := (digitChar_mono k hk j hj).symm
            rw [← hbk] at h3 h4
            omega
          rw [ih bs' hlen' hta htb, hexVal_cons, hexVal_cons, hvj, hvk, hlen', hjk]
          simp [Nat.add_lt_add_iff_left]

/-- `strMaxBin` on canonical encodings is the encoding of the numeric max. -/
theorem strMaxBin_canon {va vb : Nat} (hva : va < 16 ^ 5) (hvb : vb < 16 ^ 5) :
    strMaxBin (String.mk (padZero5 (hexRepr va))) (String.mk (padZero5 (hexRepr vb)))
      = String.mk (padZero5 (hexRepr (Nat.max va vb))) := by
  obtain ⟨hla, hma, hha⟩ := encode5_facts hva
  obtain ⟨hlb, hmb, hhb⟩ := encode5_facts hvb
  have hiff : bytesLt (padZero5 (hexRepr va)) (padZero5 (hexRepr vb)) = true ↔ va < vb := by
    rw [bytesLt_iff_hexVal _ _ (hla.trans hlb.symm) hma hmb, hha, hhb]
  unfold strMaxBin
  rw [show (String.mk (padZero5 (hexRepr va))).data = padZero5 (hexRepr va) from rfl,
    show (String.mk (padZero5 (hexRepr vb))).data = padZero5 (hexRepr vb) from rfl]
  by_cases h : va < vb
  · rw [if_pos (hiff.mpr h),
      show Nat.max va vb = vb from Nat.max_eq_right (Nat.le_of_lt h)]
  · rw [if_neg (by rw [hiff]; omega),
      show Nat.max va vb = va from Nat.max_eq_left (Nat.le_of_not_lt h)]

/-- Folding `strMaxBin` over canonical addresses encodes the running numeric
maximum. -/
theorem foldl_strMaxBin_canon :
    ∀ (ps : List String) (v0 : Nat), v0 < 16 ^ 5 →
      (∀ p ∈ ps, IsCanon5 p) →
      ps.foldl strMaxBin (String.mk (padZero5 (hexRepr v0)))
        = String.mk (padZero5 (hexRepr
            ((ps.map fun s => hexVal s.data).foldl Nat.max v0))) := by
  intro ps
  induction ps with
  | nil => intro v0 _ _; rfl
  | cons p ps' ih =>
    intro v0 hv0 hc
    obtain ⟨vp, hvp, rfl⟩ := hc _ (List.mem_cons_self p ps')
    rw [List.foldl_cons, strMaxBin_canon hv0 hvp, List.map_cons, List.foldl_cons,
      show (String.mk (padZero5 (hexRepr vp))).data = padZero5 (hexRepr vp) from rfl,
      (encode5_facts hvp).2.2,
      ih (Nat.max v0 vp) (Nat.max_lt.mpr ⟨hv0, hvp⟩)
        fun q hq => hc q (List.mem_cons_of_mem _ hq)]

/-- The running numeric maximum over canonical addresses stays in range. -/
theorem maxNumVal_aux_lt :
    ∀ (l : List String) (acc : Nat), acc < 16 ^ 5 →
      (∀ p ∈ l, IsCanon5 p) →
      (l.map fun s => hexVal s.data).foldl Nat.max acc < 16 ^ 5 := by
  intro l
  induction l with
  | nil => intro acc hacc _; simpa using hacc
  | cons p ps ih =>
    intro acc hacc hc
    obtain ⟨vp, hvp, rfl⟩ := hc _ (List.mem_cons_self p ps)
    rw [List.map_cons, List.foldl_cons,
      show (String.mk (padZero5 (hexRepr vp))).data = padZero5 (hexRepr vp) from rfl,
      (encode5_facts hvp).2.2]
    exact ih (Nat.max acc vp) (Nat.max_lt.mpr ⟨hacc, hvp⟩)
      fun q hq => hc q (List.mem_cons_of_mem _ hq)

/-- The numeric maximum of canonical addresses is in range. -/
theorem maxNumVal_lt {l : List String} (hc : ∀ p ∈ l, IsCanon5 p) :
    maxNumVal l < 16 ^ 5 :=
  maxNumVal_aux_lt l 0 (by norm_num) hc

/-- `largest_prefix` on a non-empty all-canonical store returns the encoding
of the numeric maximum. -/
theorem largest_pfx_canon {st : Store} (hc : ∀ p ∈ pfxList st, IsCanon5 p)
    (hne : pfxList st ≠ []) :
    largest_pfx st = some (String.mk (padZero5 (hexRepr (maxNumVal (pfxList st))))) := by
  unfold largest_pfx maxNumVal
  cases hl : pfxList st with
  | nil => exact absurd hl hne
  | cons p ps =>
    rw [hl] at hc
    obtain ⟨vp, hvp, hpv⟩ := hc _ (List.mem_cons_self p ps)
    subst hpv
    dsimp only
    rw [foldl_strMaxBin_canon ps vp hvp fun q hq => hc q (List.mem_cons_of_mem _ hq),
      List.map_cons, List.foldl_cons,
      show (String.mk (padZero5 (hexRepr vp))).data = padZero5 (hexRepr vp) from rfl,
      (encode5_facts hvp).2.2, show Nat.max 0 vp = vp from Nat.zero_max vp]

/-- The numeric maximum is invariant under permutation of the rows. -/
theorem maxNumVal_perm {l1 l2 : List String} (h : List.Perm l1 l2) :
    maxNumVal l1 = maxNumVal l2 := by
  unfold maxNumVal
  haveI : RightCommutative Nat.max :=
    ⟨fun a b c =>
      (Nat.max_assoc a b c).trans
        ((congrArg (Nat.max a) (Nat.max_comm b c)).trans (Nat.max_assoc a c b).symm)⟩
  exact (h.map _).foldl_eq 0

/-- One-digit evaluation of the hexadecimal encoder. -/
theorem hexRepr_small {n : Nat} (h : n < 16) : hexRepr n = [Nat.digitChar n] := by
  unfold hexRepr
  rw [dif_pos h]

/-- Recursive step of the hexadecimal encoder. -/
theorem hexRepr_step {n : Nat} (h : ¬ n < 16) :
    hexRepr n = hexRepr (n / 16) ++ [Nat.digitChar (n % 16)] := by
  conv_lhs => rw [hexRepr]
  rw [dif_neg h]

/-- `find_missing` on an all-canonical store, as a function of the numeric
maximum alone. -/
theorem find_missing_canon {st : Store} (hc : ∀ p ∈ pfxList st, IsCanon5 p) :
    find_missing st =
      (if pfxList st = [] then Except.ok (some "00000")
       else if maxNumVal (pfxList st) + 1 = 16 ^ 5 then Except.ok none
       else Except.ok (some
         (String.mk (padZero5 (hexRepr (maxNumVal (pfxList st) + 1)))))) := by
  by_cases hne : pfxList st = []
  · rw [if_pos hne]
    unfold find_missing largest_pfx
    rw [hne]
  · rw [if_neg hne]
    unfold find_missing
    rw [largest_pfx_canon hc hne]
    dsimp only
    have hM : maxNumVal (pfxList st) < 16 ^ 5 := maxNumVal_lt hc
    obtain ⟨hlen, hmem, hval⟩ := encode5_facts hM
    have hnil : padZero5 (hexRepr (maxNumVal (pfxList st))) ≠ [] := by
      intro he
      rw [he] at hlen
      simp at hlen
    rw [pyInt16_hexDigits hnil (canonList_hex hmem), hval]
    dsimp only
    by_cases he : maxNumVal (pfxList st) + 1 = 16 ^ 5
    · rw [if_pos (by unfold TOTAL_ROWS; push_cast; omega), if_pos he]
    · rw [if_neg (by unfold TOTAL_ROWS; push_cast; omega), if_neg he]
      unfold pyFormatHex5
      rw [if_neg (by omega),
        show ((maxNumVal (pfxList st) : Int) + 1).toNat
          = maxNumVal (pfxList st) + 1 by omega]

/-- C2: allocation depends only on the numeric maximum of the persisted
canonical addresses — `find_missing` returns `00000` on an empty store, `None`
(exhaustion) when the maximum is `fffff`, and the zero-padded 5-hex-digit
encoding of `max + 1` otherwise; the result is invariant under any
permutation (insertion order, row count) of the rows. -/
theorem find_missing_spec (st : Store) (hc : ∀ p ∈ pfxList st, IsCanon5 p) :
    (pfxList st = [] → find_missing st = Except.ok (some "00000"))
    ∧ (pfxList st ≠ [] →
        (maxNumVal (pfxList st) + 1 = 16 ^ 5 → find_missing st = Except.ok none)
        ∧ (maxNumVal (pfxList st) + 1 ≠ 16 ^ 5 →
            find_missing st = Except.ok (some
              (String.mk (padZero5 (hexRepr (maxNumVal (pfxList st) + 1)))))))
    ∧ ∀ st' : Store, List.Perm (pfxList st') (pfxList st) →
        find_missing st' = find_missing st := by
  refine ⟨?_, ?_, ?_⟩
  · intro hne
    rw [find_missing_canon hc, if_pos hne]
  · intro hne
    constructor
    · intro he
      rw [find_missing_canon hc, if_neg hne, if_pos he]
    · intro he
      rw [find_missing_canon hc, if_neg hne, if_neg he]
  · intro st' hperm
    have hc' : ∀ p ∈ pfxList st', IsCanon5 p :=
      fun p hp => hc p (hperm.mem_iff.mp hp)
    rw [find_missing_canon hc, find_missing_canon hc',
      maxNumVal_perm hperm]
    by_cases hne : pfxList st = []
    · rw [if_pos hne, if_pos (by rw [hne] at hperm; exact hperm.eq_nil)]
    · rw [if_neg hne, if_neg (by
        intro he
        rw [he] at hperm
        exact hne hperm.symm.eq_nil)]

/-- C2 witness: after the out-of-order inserts `{000af, 000b1, 000b0, 000ae}`
the allocator returns `000b2`, one more than the numeric maximum `000b1`. -/
theorem find_missing_spec_witness :
    (∀ p ∈ pfxList ⟨[⟨"000af", []⟩, ⟨"000b1", []⟩, ⟨"000b0", []⟩, ⟨"000ae", []⟩]⟩,
      IsCanon5 p)
    ∧ find_missing ⟨[⟨"000af", []⟩, ⟨"000b1", []⟩, ⟨"000b0", []⟩, ⟨"000ae", []⟩]⟩
        = Except.ok (some "000b2") := by
  have h175 : hexRepr 175 = ['a', 'f'] := by
    rw [hexRepr_step (by norm_num)]
    norm_num
    rw [hexRepr_small (by norm_num)]
    decide
  have h177 : hexRepr 177 = ['b', '1'] := by
    rw [hexRepr_step (by norm_num)]
    norm_num
    rw [hexRepr_small (by norm_num)]
    decide
  have h176 : hexRepr 176 = ['b', '0'] := by
    rw [hexRepr_step (by norm_num)]
    norm_num
    rw [hexRepr_small (by norm_num)]
    decide
  have h174 : hexRepr 174 = ['a', 'e'] := by
    rw [hexRepr_step (by norm_num)]
    norm_num
    rw [hexRepr_small (by norm_num)]
    decide
  have h178 : hexRepr 178 = ['b', '2'] := by
    rw [hexRepr_step (by norm_num)]
    norm_num
    rw [hexRepr_small (by norm_num)]
    decide
  have hc : ∀ p ∈ pfxList ⟨[⟨"000af", []⟩, ⟨"000b1", []⟩, ⟨"000b0", []⟩, ⟨"000ae", []⟩]⟩,
      IsCanon5 p := by
    intro p hp
    simp [pfxList] at hp
    rcases hp with rfl | rfl | rfl | rfl
    · exact ⟨175, by norm_num, by rw [h175]; decide⟩
    · exact ⟨177, by norm_num, by rw [h177]; decide⟩
    · exact ⟨176, by norm_num, by rw [h176]; decide⟩
    · exact ⟨174, by norm_num, by rw [h174]; decide⟩
  refine ⟨hc, ?_⟩
  have h := ((find_missing_spec _ hc).2.1 (by decide)).2 (by decide)
  rw [h, show maxNumVal (pfxList ⟨[⟨"000af", []⟩, ⟨"000b1", []⟩, ⟨"000b0", []⟩,
      ⟨"000ae", []⟩]⟩) + 1 = 178 from by decide, h178]
  rfl

/-- C9: `percentage_complete` is `0.0` on an empty store, and otherwise
`((numeric maximum + 1) / 2^20) * 100` — in particular `(1/2^20)*100` after
inserting only `00000`, and exactly `100` after inserting `fffff`.  (Every
float the source computes here is exactly representable, so the rational
model is exact.) -/
theorem percentage_complete_spec :
    percentage_complete ⟨[]⟩ = Except.ok 0
    ∧ (∀ st : Store, (∀ p ∈ pfxList st, IsCanon5 p) → pfxList st ≠ [] →
        percentage_complete st
          = Except.ok (((maxNumVal (pfxList st) + 1 : Nat) : ℚ) / ((2 : ℚ) ^ 20) * 100))
    ∧ percentage_complete ⟨[⟨"00000", []⟩]⟩ = Except.ok ((1 : ℚ) / ((2 : ℚ) ^ 20) * 100)
    ∧ percentage_complete ⟨[⟨"fffff", []⟩]⟩ = Except.ok 100 := by
  have hmain : ∀ st : Store, (∀ p ∈ pfxList st, IsCanon5 p) → pfxList st ≠ [] →
      percentage_complete st
        = Except.ok (((maxNumVal (pfxList st) + 1 : Nat) : ℚ) / ((2 : ℚ) ^ 20) * 100) := by
    intro st hc hne
    unfold percentage_complete
    rw [largest_pfx_canon hc hne]
    dsimp only
    have hM : maxNumVal (pfxList st) < 16 ^ 5 := maxNumVal_lt hc
    obtain ⟨hlen, hmem, hval⟩ := encode5_facts hM
    have hnil : padZero5 (hexRepr (maxNumVal (pfxList st))) ≠ [] := by
      intro he
      rw [he] at hlen
      simp at hlen
    rw [pyInt16_hexDigits hnil (canonList_hex hmem), hval]
    dsimp only
    congr 1
  have hc0 : ∀ p ∈ pfxList ⟨[⟨"00000", []⟩]⟩, IsCanon5 p := by
    intro p hp
    simp [pfxList] at hp
    subst hp
    exact ⟨0, by norm_num, by rw [hexRepr_small (by norm_num)]; decide⟩
  refine ⟨?_, hmain, ?_, ?_⟩
  · unfold percentage_complete largest_pfx pfxList
    norm_num
  · rw [hmain _ hc0 (by decide),
      show maxNumVal (pfxList ⟨[⟨"00000", []⟩]⟩) = 0 from by decide]
    norm_num
  · have hf : hexRepr 1048575 = ['f', 'f', 'f', 'f', 'f'] := by
      rw [hexRepr_step (by norm_num)]
      norm_num
      rw [hexRepr_step (by norm_num)]
      norm_num
      rw [hexRepr_step (by norm_num)]
      norm_num
      rw [hexRepr_step (by norm_num)]
      norm_num
      rw [hexRepr_small (by norm_num)]
      decide
    have hc : ∀ p ∈ pfxList ⟨[⟨"fffff", []⟩]⟩, IsCanon5 p := by
      intro p hp
      simp [pfxList] at hp
      subst hp
      exact ⟨1048575, by norm_num, by rw [hf]; decide⟩
    rw [hmain _ hc (by decide),
      show maxNumVal (pfxList ⟨[⟨"fffff", []⟩]⟩) = 1048575 from by decide]
    norm_num

/-- C9 witness: the non-empty formula applied to the store holding only
`00000`. -/
theorem percentage_complete_spec_witness :
    (∀ p ∈ pfxList ⟨[⟨"00000", []⟩]⟩, IsCanon5 p)
    ∧ pfxList ⟨[⟨"00000", []⟩]⟩ ≠ []
    ∧ percentage_complete ⟨[⟨"00000", []⟩]⟩
        = Except.ok (((maxNumVal (pfxList ⟨[⟨"00000", []⟩]⟩) + 1 : Nat) : ℚ)
            / ((2 : ℚ) ^ 20) * 100) := by
  have hc : ∀ p ∈ pfxList ⟨[⟨"00000", []⟩]⟩, IsCanon5 p := by
    intro p hp
    simp [pfxList] at hp
    subst hp
    exact ⟨0, by norm_num, by rw [hexRepr_small (by norm_num)]; decide⟩
  exact ⟨hc, by decide, percentage_complete_spec.2.1 _ hc (by decide)⟩

/-! ### The `Prefix.__init__` cleaning commutes with the spec's reading -/

/-- Casefolding preserves base-16 digit values (upper-case hex letters map to
the lower-case letter of the same value; everything else is untouched or
stays a non-digit). -/
theorem pyToLower_digitVal (c : Char) :
    pyDigitValB 16 (pyToLower c) = pyDigitValB 16 c := by
  rcases pyToLower_toNat c with h | ⟨h, h1, h2⟩
  · rw [char_toNat_inj h]
  · have ha : pyDigitVal c = some (c.toNat - 55) := by
      unfold pyDigitVal
      rw [if_neg (by omega), if_neg (by omega), if_pos (by omega)]
    have hb : pyDigitVal (pyToLower c) = some (c.toNat - 55) := by
      unfold pyDigitVal
      rw [h, if_neg (by omega), if_pos (by omega),
        show c.toNat + 32 - 87 = c.toNat - 55 from by omega]
    unfold pyDigitValB
    rw [ha, hb]

/-- The code's order (casefold, then strip a lower-case `0x`) equals the
spec's order (strip `0x`/`0X`, then casefold). -/
theorem casefold_strip_comm (l : List Char) :
    (if (pyCasefold l).take 2 = ['0', 'x'] then (pyCasefold l).drop 2 else pyCasefold l)
      = pyCasefold (strip0xAnyCase l) := by
  unfold strip0xAnyCase
  cases l with
  | nil => simp [pyCasefold]
  | cons c cs =>
    cases cs with
    | nil => simp [pyCasefold]
    | cons d rest =>
      have htake : (pyCasefold (c :: d :: rest)).take 2 = [pyToLower c, pyToLower d] := rfl
      have htake2 : (c :: d :: rest).take 2 = [c, d] := rfl
      by_cases hcd : c = '0' ∧ (d = 'x' ∨ d = 'X')
      · have h1 : (pyCasefold (c :: d :: rest)).take 2 = ['0', 'x'] := by
          rw [htake, (pyToLower_eq_zero_iff c).mpr hcd.1, (pyToLower_eq_x_iff d).mpr hcd.2]
        have h2 : (c :: d :: rest).take 2 = ['0', 'x'] ∨ (c :: d :: rest).take 2 = ['0', 'X'] := by
          rw [htake2]
          obtain ⟨rfl, hd⟩ := hcd
          rcases hd with rfl | rfl
          · exact Or.inl rfl
          · exact Or.inr rfl
        rw [if_pos h1, if_pos h2]
        rfl
      · have h1 : ¬ (pyCasefold (c :: d :: rest)).take 2 = ['0', 'x'] := by
          rw [htake]
          intro he
          simp only [List.cons.injEq, and_true] at he
          exact hcd ⟨(pyToLower_eq_zero_iff c).mp he.1, (pyToLower_eq_x_iff d).mp he.2⟩
        have h2 : ¬ ((c :: d :: rest).take 2 = ['0', 'x'] ∨ (c :: d :: rest).take 2 = ['0', 'X']) := by
          rw [htake2]
          rintro (he | he) <;> simp only [List.cons.injEq, and_true] at he
          · exact hcd ⟨he.1, Or.inl he.2⟩
          · exact hcd ⟨he.1, Or.inr he.2⟩
        rw [if_neg h1, if_neg h2]

/-- C7: address construction succeeds exactly when, after stripping an
optional leading `0x`/`0X` and casefolding, the result is 5 characters that
`int(·, 16)` accepts; and for every valid 5-hex-digit string — optionally
`0x`-prefixed, any case — the canonical form is the lower-cased string with
the marker removed. -/
theorem pfx_construct_spec :
    (∀ s : String,
      (∃ p, pyPfxInit s = Except.ok p)
        ↔ ((pyCasefold (strip0xAnyCase s.data)).length = 5
           ∧ (pyInt16 (pyCasefold (strip0xAnyCase s.data))).isSome))
    ∧ (∀ (s : String) (core : List Char),
        core.length = 5 → (∀ c ∈ core, (pyDigitValB 16 c).isSome) →
        (s.data = core ∨ s.data = '0' :: 'x' :: core ∨ s.data = '0' :: 'X' :: core) →
        pyPfxInit s = Except.ok (String.mk (pyCasefold core))) := by
  constructor
  · intro s
    rw [← casefold_strip_comm s.data]
    unfold pyPfxInit
    dsimp only
    generalize (if (pyCasefold s.data).take 2 = ['0', 'x']
      then (pyCasefold s.data).drop 2 else pyCasefold s.data) = q
    by_cases hl : q.length = 5
    · cases hi : pyInt16 q with
      | none => simp [hl, hi]
      | some v => simp [hl, hi]
    · simp [hl]
  · intro s core h5 hhex hshape
    have hcf : ∀ c ∈ pyCasefold core, (pyDigitValB 16 c).isSome := by
      intro c hc
      obtain ⟨c0, hc0, rfl⟩ := List.mem_map.mp hc
      rw [pyToLower_digitVal c0]
      exact hhex c0 hc0
    have hne : pyCasefold core ≠ [] := by
      intro he
      have : (pyCasefold core).length = 5 := by simp [pyCasefold, h5]
      rw [he] at this
      simp at this
    have hmain : (if (pyCasefold core).length ≠ 5
        then (Except.error "prefix must be exactly 5-characters long" : Except String String)
        else match pyInt16 (pyCasefold core) with
          | none => Except.error "prefix must be hexadecimal string"
          | some _ => Except.ok (String.mk (pyCasefold core)))
        = Except.ok (String.mk (pyCasefold core)) := by
      rw [if_neg (by simp [pyCasefold, h5]), pyInt16_hexDigits hne hcf]
    have hnotx : ¬ (pyCasefold core).take 2 = ['0', 'x'] := by
      intro he
      have hx : 'x' ∈ pyCasefold core := by
        apply List.take_subset 2
        rw [he]
        simp
      have := hcf 'x' hx
      simp [pyDigitValB, pyDigitVal] at this
    unfold pyPfxInit
    dsimp only
    rcases hshape with he | he | he <;> rw [he]
    · rw [if_neg hnotx]
      exact hmain
    · rw [show pyCasefold ('0' :: 'x' :: core) = '0' :: 'x' :: pyCasefold core from rfl,
        if_pos (show List.take 2 ('0' :: 'x' :: pyCasefold core) = ['0', 'x'] from rfl),
        show List.drop 2 ('0' :: 'x' :: pyCasefold core) = pyCasefold core from rfl]
      exact hmain
    · rw [show pyCasefold ('0' :: 'X' :: core) = '0' :: 'x' :: pyCasefold core from rfl,
        if_pos (show List.take 2 ('0' :: 'x' :: pyCasefold core) = ['0', 'x'] from rfl),
        show List.drop 2 ('0' :: 'x' :: pyCasefold core) = pyCasefold core from rfl]
      exact hmain

/-- C7 witness: the mixed-case `0x`-prefixed input `0XDecaF` constructs
successfully with canonical form `decaf`. -/
theorem pfx_construct_spec_witness :
    (['D', 'e', 'c', 'a', 'F'].length = 5)
    ∧ (∀ c ∈ ['D', 'e', 'c', 'a', 'F'], (pyDigitValB 16 c).isSome)
    ∧ ("0XDecaF" : String).data = '0' :: 'X' :: ['D', 'e', 'c', 'a', 'F']
    ∧ pyPfxInit "0XDecaF" = Except.ok "decaf" :=
  ⟨by decide, by decide, by decide,
   pfx_construct_spec.2 "0XDecaF" ['D', 'e', 'c', 'a', 'F'] (by decide) (by decide)
     (Or.inr (Or.inr (by decide)))⟩

end Pwneddb
